import Mathlib

/-!
Verification of the smhash repository: a from-scratch SHA-256 implementation
(src/app/sha256.py), a 64-bit ARX block hash tuned for mining
(src/app/smhash.py), and the nonce-search loops built on them
(src/app/miner.py and smhash.py mine_block / verify_block).

Bytes are modelled as natural numbers below 256 in a List Nat; Python byte
strings become such lists.  Hex digests (Python str) are List Char.  Machine
words are Nat with explicit reductions mod 2 ^ 32 or 2 ^ 64 wherever the
source masks with 0xFFFFFFFF or 0xFFFFFFFFFFFFFFFF.  Python while loops are
embedded as structural recursion on an explicit fuel argument that provably
dominates the number of iterations, so that every definition evaluates by
kernel reduction.
-/

/-- The sixteen lowercase hex digit characters, in value order. -/
def hexChars : List Char := ("0123456789abcdef").toList

/-- Hex digit character for a value below 16 (Python lowercase x formatting). -/
def hexChar (d : Nat) : Char := hexChars.getD d '0'

/-- Two lowercase hex characters of one byte, as in Python bytes.hex(). -/
def byteHex (b : Nat) : List Char := [hexChar (b / 16), hexChar (b % 16)]

/-- Python bytes.hex(): every byte becomes two lowercase hex characters. -/
def bytesHex (l : List Nat) : List Char := l.flatMap byteHex

/-- Python int.to_bytes(n, big): n big-endian bytes of v.  Python raises
OverflowError when v is at least 256 ^ n; this model instead drops the high
bits, which agrees with Python on every value the repository ever encodes
(all call sites keep their words below the bound). -/
def toBytesBE : Nat → Nat → List Nat
  | 0, _ => []
  | n + 1, v => toBytesBE n (v / 256) ++ [v % 256]

/-- Byte at index i of a byte list (0 when out of range; the reduction mod 256
models the Python bytes type, whose elements are below 256 by construction). -/
def byteAt (l : List Nat) (i : Nat) : Nat := l.getD i 0 % 256

/-- Big-endian 32-bit word read at byte offset i, as in
int.from_bytes(block[i : i + 4], big). -/
def word32At (l : List Nat) (i : Nat) : Nat :=
  byteAt l i * 2 ^ 24 + byteAt l (i + 1) * 2 ^ 16 + byteAt l (i + 2) * 2 ^ 8 +
    byteAt l (i + 3)

/-- Big-endian 64-bit word read at byte offset i, one field of
struct.unpack of eight big-endian Q values. -/
def word64At (l : List Nat) (i : Nat) : Nat :=
  byteAt l i * 2 ^ 56 + byteAt l (i + 1) * 2 ^ 48 + byteAt l (i + 2) * 2 ^ 40 +
    byteAt l (i + 3) * 2 ^ 32 + byteAt l (i + 4) * 2 ^ 24 +
    byteAt l (i + 5) * 2 ^ 16 + byteAt l (i + 6) * 2 ^ 8 + byteAt l (i + 7)

/-- ASCII decimal digits of n, most significant first; fuel-driven form of
repeated division by 10 (fuel n dominates the digit count). -/
def decDigitsF : Nat → Nat → List Nat
  | 0, _ => []
  | f + 1, n => if n = 0 then [] else decDigitsF f (n / 10) ++ [48 + n % 10]

/-- UTF-8 bytes of Python str(n) for a natural n: ASCII decimal, and the
single digit 0 for n = 0. -/
def decBytes (n : Nat) : List Nat := if n = 0 then [48] else decDigitsF n n

/-- Python s.startswith(t) on strings modelled as character lists. -/
def startsWith (s t : List Char) : Bool := decide (s.take t.length = t)

namespace SHA256

/-- Round constants k of sha256.py SHA256.__init__ (the source hex values,
written here as decimal literals). -/
def k64 : List Nat := [
  1116352408, 1899447441, 3049323471, 3921009573, 961987163,
  1508970993, 2453635748, 2870763221, 3624381080, 310598401,
  607225278, 1426881987, 1925078388, 2162078206, 2614888103,
  3248222580, 3835390401, 4022224774, 264347078, 604807628,
  770255983, 1249150122, 1555081692, 1996064986, 2554220882,
  2821834349, 2952996808, 3210313671, 3336571891, 3584528711,
  113926993, 338241895, 666307205, 773529912, 1294757372,
  1396182291, 1695183700, 1986661051, 2177026350, 2456956037,
  2730485921, 2820302411, 3259730800, 3345764771, 3516065817,
  3600352804, 4094571909, 275423344, 430227734, 506948616,
  659060556, 883997877, 958139571, 1322822218, 1537002063,
  1747873779, 1955562222, 2024104815, 2227730452, 2361852424,
  2428436474, 2756734187, 3204031479, 3329325298]

/-- SHA256._right_rotate: rotate a 32-bit integer right by n bits. -/
def right_rotate (x n : Nat) : Nat := ((x >>> n) ||| (x <<< (32 - n))) % 2 ^ 32

/-- SHA256._sha256_functions with operation Ch.  The Python complement on an
unbounded int, intersected with a 32-bit operand, equals xor against the
32-bit all-ones mask on the reachable (32-bit) arguments. -/
def ch (x y z : Nat) : Nat := (x &&& y) ^^^ (((2 ^ 32 - 1) ^^^ x % 2 ^ 32) &&& z)

/-- SHA256._sha256_functions with operation Maj. -/
def maj (x y z : Nat) : Nat := (x &&& y) ^^^ (x &&& z) ^^^ (y &&& z)

/-- SHA256._sigma, operation big_0. -/
def sigma_big0 (x : Nat) : Nat :=
  right_rotate x 2 ^^^ right_rotate x 13 ^^^ right_rotate x 22

/-- SHA256._sigma, operation big_1. -/
def sigma_big1 (x : Nat) : Nat :=
  right_rotate x 6 ^^^ right_rotate x 11 ^^^ right_rotate x 25

/-- SHA256._sigma, operation small_0. -/
def sigma_small0 (x : Nat) : Nat :=
  right_rotate x 7 ^^^ right_rotate x 18 ^^^ (x >>> 3)

/-- SHA256._sigma, operation small_1. -/
def sigma_small1 (x : Nat) : Nat :=
  right_rotate x 17 ^^^ right_rotate x 19 ^^^ (x >>> 10)

/-- The eight working registers a..h of SHA256._process_block, and equally the
eight persistent hash words h[0..7] (same order). -/
structure Regs where
  a : Nat
  b : Nat
  c : Nat
  d : Nat
  e : Nat
  f : Nat
  g : Nat
  h : Nat
deriving DecidableEq, Repr

/-- Initial hash values h[0..7] of sha256.py SHA256.__init__, as the eight
word fields in list order (source hex values as decimal literals). -/
def initH : Regs := ⟨1779033703, 3144134277, 1013904242, 2773480762,
  1359893119, 2600822924, 528734635, 1541459225⟩

/-- Message-schedule extension loop of _process_block: while fewer than 64
words, append (w[i-16] + s0(w[i-15]) + w[i-7] + s1(w[i-2])) mod 2^32 where i
is the current length; run 48 times to extend 16 words to 64. -/
def extendW : Nat → List Nat → List Nat
  | 0, w => w
  | f + 1, w =>
    let i := w.length
    let next := (w.getD (i - 16) 0 + sigma_small0 (w.getD (i - 15) 0) +
      w.getD (i - 7) 0 + sigma_small1 (w.getD (i - 2) 0)) % 2 ^ 32
    extendW f (w ++ [next])

/-- Full 64-word message schedule of one 64-byte block. -/
def schedule (block : List Nat) : List Nat :=
  extendW 48 ((List.range 16).map fun i => word32At block (4 * i))

/-- One round of the main loop of _process_block, consuming the pair
(k[i], w[i]). -/
def roundStep (r : Regs) (kw : Nat × Nat) : Regs :=
  let S1 := sigma_big1 r.e
  let c1 := ch r.e r.f r.g
  let temp1 := (r.h + S1 + c1 + kw.1 + kw.2) % 2 ^ 32
  let S0 := sigma_big0 r.a
  let m1 := maj r.a r.b r.c
  let temp2 := (S0 + m1) % 2 ^ 32
  ⟨(temp1 + temp2) % 2 ^ 32, r.a, r.b, r.c, (r.d + temp1) % 2 ^ 32, r.e, r.f, r.g⟩

/-- SHA256._process_block: schedule, 64 rounds, then add the working registers
into the hash state mod 2^32. -/
def process_block (hs : Regs) (block : List Nat) : Regs :=
  let w := schedule block
  let r := (k64.zip w).foldl roundStep hs
  ⟨(hs.a + r.a) % 2 ^ 32, (hs.b + r.b) % 2 ^ 32, (hs.c + r.c) % 2 ^ 32,
    (hs.d + r.d) % 2 ^ 32, (hs.e + r.e) % 2 ^ 32, (hs.f + r.f) % 2 ^ 32,
    (hs.g + r.g) % 2 ^ 32, (hs.h + r.h) % 2 ^ 32⟩

/-- Zero-append loop of SHA256._pad_message: while (len * 8 + 64) mod 512 is
nonzero, append a zero byte.  At most 63 zero bytes are ever appended, so
fuel 64 always suffices (padLoopF_eq below). -/
def padLoopF : Nat → List Nat → List Nat
  | 0, m => m
  | f + 1, m =>
    if (m.length * 8 + 64) % 512 = 0 then m else padLoopF f (m ++ [0])

/-- SHA256._pad_message: append 0x80, zero-fill to 56 mod 64, then the bit
length as 8 big-endian bytes. -/
def pad_message (msg : List Nat) : List Nat :=
  padLoopF 64 (msg ++ [0x80]) ++ toBytesBE 8 (8 * msg.length)

/-- The list of 64-byte chunks of l taken front to back, the range(0, len, 64)
slicing of SHA256.hash; fuel (the list length) dominates the chunk count. -/
def chunks64F : Nat → List Nat → List (List Nat)
  | 0, _ => []
  | f + 1, l => if l = [] then [] else l.take 64 :: chunks64F f (l.drop 64)

/-- Digits of n in base 16, most significant first, empty for n = 0;
fuel-driven form of repeated division (fuel n dominates the digit count). -/
def hexDigitsF : Nat → Nat → List Char
  | 0, _ => []
  | f + 1, n => if n = 0 then [] else hexDigitsF f (n / 16) ++ [hexChar (n % 16)]

/-- Python lowercase hex rendering of a natural number (format x), which
prints the single digit 0 for zero. -/
def pyHex (n : Nat) : List Char := if n = 0 then ['0'] else hexDigitsF n n

/-- Python format 08x: lowercase hex left-padded with zeros to width 8. -/
def toHex8 (n : Nat) : List Char :=
  List.replicate (8 - (pyHex n).length) '0' ++ pyHex n

/-- SHA256.hash: reset to the initial constants, pad, compress every 64-byte
block in order, then join the eight hash words as 08x fields.  The reset at
the top of the Python method makes the result a pure function of the message,
which is how it is modelled. -/
def hash (msg : List Nat) : List Char :=
  let padded := pad_message msg
  let final := (chunks64F padded.length padded).foldl process_block initH
  toHex8 final.a ++ toHex8 final.b ++ toHex8 final.c ++ toHex8 final.d ++
    toHex8 final.e ++ toHex8 final.f ++ toHex8 final.g ++ toHex8 final.h

end SHA256

/-- MiningMode enum of smhash.py. -/
inductive MiningMode where
  | FAST
  | STANDARD
  | SECURE
deriving DecidableEq, Repr

namespace BlockHash

/-- BlockHash._get_round_count: rounds per block by mining mode. -/
def round_count : MiningMode → Nat
  | .FAST => 2
  | .STANDARD => 3
  | .SECURE => 4

/-- The four 64-bit state words, embedding the Python list
state = [s0, s1, s2, s3]. -/
structure MState where
  s0 : Nat
  s1 : Nat
  s2 : Nat
  s3 : Nat
deriving DecidableEq, Repr

/-- BlockHash.MINING_CONSTANTS, the reset state (source hex values as
decimal literals). -/
def MINING_CONSTANTS : MState :=
  ⟨7640891576956012808,
    13503953896175478587,
    4354685564936845355,
    11912009170470909681⟩

/-- BlockHash._rotright: 64-bit right rotation (mask 0xFFFFFFFFFFFFFFFF is
reduction mod 2^64). -/
def rotright (v s : Nat) : Nat := ((v >>> s) ||| (v <<< (64 - s))) % 2 ^ 64

/-- BlockHash._rotleft: 64-bit left rotation. -/
def rotleft (v s : Nat) : Nat := ((v <<< s) ||| (v >>> (64 - s))) % 2 ^ 64

/-- BlockHash._mix_mining: two rounds of rotate-xor diffusion on a word pair. -/
def mix_mining (x y : Nat) : Nat × Nat :=
  let x1 := rotright x 13 ^^^ y
  let y1 := rotleft y 17 ^^^ x1
  let x2 := rotright x1 21 ^^^ y1
  let y2 := rotleft y1 29 ^^^ x2
  (x2, y2)

/-- One iteration of the mixing-rounds loop of _process_mining_block:
mix the pairs (0,1) and (2,3), then cross mix (0,2) and (1,3). -/
def mix_round (st : MState) : MState :=
  let p01 := mix_mining st.s0 st.s1
  let p23 := mix_mining st.s2 st.s3
  let c02 := mix_mining p01.1 p23.1
  let c13 := mix_mining p01.2 p23.2
  ⟨c02.1, c13.1, c02.2, c13.2⟩

/-- The for loop over range(rounds) in _process_mining_block. -/
def iterateRounds : Nat → MState → MState
  | 0, st => st
  | n + 1, st => iterateRounds n (mix_round st)

/-- BlockHash._process_mining_block: unpack eight big-endian 64-bit words,
xor the folded halves into the state, then run the mode-dependent number of
mixing rounds. -/
def process_mining_block (mode : MiningMode) (st : MState) (block : List Nat) :
    MState :=
  let v0 := word64At block 0
  let v1 := word64At block 8
  let v2 := word64At block 16
  let v3 := word64At block 24
  let v4 := word64At block 32
  let v5 := word64At block 40
  let v6 := word64At block 48
  let v7 := word64At block 56
  iterateRounds (round_count mode)
    ⟨st.s0 ^^^ (v0 ^^^ v4), st.s1 ^^^ (v1 ^^^ v5),
      st.s2 ^^^ (v2 ^^^ v6), st.s3 ^^^ (v3 ^^^ v7)⟩

/-- A BlockHash engine: the mining mode fixed at construction, the four state
words, and the pending byte buffer. -/
structure Engine where
  mode : MiningMode
  state : MState
  buffer : List Nat
deriving DecidableEq, Repr

/-- BlockHash.__init__ / reset: constants restored, buffer emptied. -/
def mk (mode : MiningMode) : Engine := ⟨mode, MINING_CONSTANTS, []⟩

/-- The while loop of BlockHash.update: as long as at least 64 bytes are
buffered, compress the first 64 and keep the remainder.  Fuel (the buffer
length) dominates the iteration count, since every iteration removes 64
bytes. -/
def drainF (mode : MiningMode) : Nat → MState → List Nat → MState × List Nat
  | 0, st, buf => (st, buf)
  | f + 1, st, buf =>
    if 64 ≤ buf.length then
      drainF mode f (process_mining_block mode st (buf.take 64)) (buf.drop 64)
    else (st, buf)

/-- BlockHash.update on bytes: extend the buffer, then drain full blocks. -/
def update (e : Engine) (data : List Nat) : Engine :=
  let buf := e.buffer ++ data
  let sb := drainF e.mode buf.length e.state buf
  ⟨e.mode, sb.1, sb.2⟩

/-- The two extra cross mixes at the end of BlockHash._finalize_mining. -/
def cross_final (st : MState) : MState :=
  let c02 := mix_mining st.s0 st.s2
  let c13 := mix_mining st.s1 st.s3
  ⟨c02.1, c13.1, c02.2, c13.2⟩

/-- BlockHash._finalize_mining as a state transformer: if the buffer is
nonempty it is zero-padded to 64 bytes and compressed (the buffer itself is
not cleared), and in every case the two cross mixes follow.  An empty buffer
is NOT compressed: the Python guard is if self.buffer. -/
def finalize_mining (mode : MiningMode) (st : MState) (buf : List Nat) : MState :=
  cross_final (if buf = [] then st
    else process_mining_block mode st (buf ++ List.replicate (64 - buf.length) 0))

/-- The digest byte string: the four state words, 8 big-endian bytes each. -/
def state_bytes (st : MState) : List Nat :=
  toBytesBE 8 st.s0 ++ toBytesBE 8 st.s1 ++ toBytesBE 8 st.s2 ++ toBytesBE 8 st.s3

/-- BlockHash.digest: copy state and buffer, finalize, encode, then restore
the copies.  The returned pair is (digest bytes, engine after the call); the
restore makes the second component exactly the engine the method started
from. -/
def digestP (e : Engine) : List Nat × Engine :=
  (state_bytes (finalize_mining e.mode e.state e.buffer),
    ⟨e.mode, e.state, e.buffer⟩)

/-- BlockHash.hexdigest: the digest bytes hex-encoded. -/
def hexdigest (e : Engine) : List Char := bytesHex (digestP e).1

/-- BlockHash._fast_nonce_mix: xor the nonce and its 32-rotation into the
first two words, then mix the pairs (0,1) and (2,3). -/
def fast_nonce_mix (st : MState) (nonce : Nat) : MState :=
  let t0 := st.s0 ^^^ nonce
  let t1 := st.s1 ^^^ rotright nonce 32
  let p01 := mix_mining t0 t1
  let p23 := mix_mining st.s2 st.s3
  ⟨p01.1, p01.2, p23.1, p23.2⟩

/-- BlockHash.hash_with_nonce: fresh engine of the given mode, absorb the
data, apply the fast nonce mix directly to the engine state, then hexdigest. -/
def hash_with_nonce (data : List Nat) (nonce : Nat) (mode : MiningMode) :
    List Char :=
  let e := update (mk mode) data
  hexdigest ⟨e.mode, fast_nonce_mix e.state nonce, e.buffer⟩

/-- Module-level smhash.hash_bytes (and hash_string after UTF-8 encoding):
fresh engine, one update, hexdigest. -/
def hash_bytes (data : List Nat) (mode : MiningMode) : List Char :=
  hexdigest (update (mk mode) data)

/-- Errors surfaced by hash_block_header: structError is a struct.error from
struct.pack (an integer field outside its 32-bit range); attrError is the
AttributeError raised by the call self.hash_bytes, an attribute that the
BlockHash class does not define (hash_bytes only exists at module level). -/
inductive PackErr where
  | structError
  | attrError
deriving DecidableEq, Repr

/-- Python int.to_bytes(n, little) for values below 256 ^ n: n little-endian
bytes. -/
def toBytesLE : Nat → Nat → List Nat
  | 0, _ => []
  | n + 1, v => v % 256 :: toBytesLE n (v / 256)

/-- struct.pack field 32s: silently truncate to 32 bytes or zero-pad up to
32 bytes — wrong-sized input is never an error. -/
def pad32 (b : List Nat) : List Nat :=
  (b.take 32) ++ List.replicate (32 - b.length) 0

/-- Range check of the struct.pack format I: unsigned 32-bit. -/
def fitsU32 (v : Int) : Bool := decide (0 ≤ v) && decide (v < 4294967296)

/-- The struct.pack call of BlockHash.hash_block_header, format
little-endian I 32s 32s I I I: fails with struct.error when an integer field
is out of range, and otherwise packs the 80-byte header, padding or
truncating the two byte fields to exactly 32 bytes. -/
def pack_header (version : Int) (prev_hash merkle_root : List Nat)
    (timestamp bits nonce : Int) : Except PackErr (List Nat) :=
  if fitsU32 version && fitsU32 timestamp && fitsU32 bits && fitsU32 nonce then
    Except.ok (toBytesLE 4 version.toNat ++ pad32 prev_hash ++ pad32 merkle_root ++
      toBytesLE 4 timestamp.toNat ++ toBytesLE 4 bits.toNat ++
      toBytesLE 4 nonce.toNat)
  else Except.error PackErr.structError

/-- BlockHash.hash_block_header: pack the header, then call self.hash_bytes.
The class defines no attribute hash_bytes, so every call that survives
packing raises AttributeError — the method can never return a digest. -/
def hash_block_header (version : Int) (prev_hash merkle_root : List Nat)
    (timestamp bits nonce : Int) : Except PackErr (List Char) :=
  (pack_header version prev_hash merkle_root timestamp bits nonce).bind
    fun _ => Except.error PackErr.attrError

end BlockHash

/-- Shared shape of the three nonce-search loops: for nonce = start upward
while fuel lasts, compute the candidate digest and return at the first digest
with the required prefix.  Each Python loop iterates
for nonce in range(max_nonce) with its own candidate function; the prints are
modelled by the returned (nonce, digest) pair, and None by exhaustion. -/
def mine_loop (cand : Nat → List Char) (target : List Char) :
    Nat → Nat → Option (Nat × List Char)
  | _, 0 => none
  | n, f + 1 =>
    let h := cand n
    if startsWith h target then some (n, h) else mine_loop cand target (n + 1) f

/-- miner.mine_sha_256_hash: candidates are SHA-256 digests of the text
followed by the decimal text of the nonce (the f-string text then nonce). -/
def mine_sha_256_hash (text : List Nat) (num_zeros max_nonce : Nat) :
    Option (Nat × List Char) :=
  mine_loop (fun nonce => SHA256.hash (text ++ decBytes nonce))
    (List.replicate num_zeros '0') 0 max_nonce

/-- miner.mine_smhash_hash: candidates are smhash.hash_string digests (mode
STANDARD, the default) of the text followed by the decimal text of the
nonce. -/
def mine_smhash_hash (text : List Nat) (num_zeros max_nonce : Nat) :
    Option (Nat × List Char) :=
  mine_loop (fun nonce => BlockHash.hash_bytes (text ++ decBytes nonce)
    MiningMode.STANDARD) (List.replicate num_zeros '0') 0 max_nonce

/-- smhash.mine_block: candidates are BlockHash.hash_with_nonce digests with
the default mode FAST; a found nonce is returned as is, exhaustion as the
sentinel (-1, empty string). -/
def mine_block (block_header : List Nat) (target_zeros max_nonce : Nat) :
    Int × List Char :=
  match mine_loop (fun nonce => BlockHash.hash_with_nonce block_header nonce
      MiningMode.FAST) (List.replicate target_zeros '0') 0 max_nonce with
  | some (n, h) => ((n : Int), h)
  | none => (-1, [])

/-- smhash.verify_block: re-derive with hash_with_nonce in mode SECURE and
compare for equality — a plain boolean, no exception on any mismatch. -/
def verify_block (block_header : List Nat) (nonce : Nat)
    (expected_hash : List Char) : Bool :=
  decide (BlockHash.hash_with_nonce block_header nonce MiningMode.SECURE =
    expected_hash)

/-! ## Search-loop lemmas -/

/-- A successful mine_loop run starting at start found the first qualifying
nonce at or after start: the digest is the candidate at that nonce, it has the
target prefix, and every earlier nonce from start on fails the prefix test. -/
theorem mine_loop_found (cand : Nat → List Char) (target : List Char) :
    ∀ (fuel start n : Nat) (h : List Char),
      mine_loop cand target start fuel = some (n, h) →
      start ≤ n ∧ n < start + fuel ∧ h = cand n ∧
        startsWith h target = true ∧
        ∀ m, start ≤ m → m < n → startsWith (cand m) target = false := by
  intro fuel
  induction fuel with
  | zero => intro start n h heq; simp [mine_loop] at heq
  | succ f ih =>
    intro start n h heq
    rw [mine_loop] at heq
    by_cases hc : startsWith (cand start) target
    · simp only [hc, if_true, Option.some.injEq, Prod.mk.injEq] at heq
      obtain ⟨rfl, rfl⟩ := heq
      exact ⟨le_refl _, by omega, rfl, hc, fun m h1 h2 => absurd h1 (by omega)⟩
    · simp only [hc, if_false] at heq
      obtain ⟨h1, h2, h3, h4, h5⟩ := ih (start + 1) n h heq
      refine ⟨by omega, by omega, h3, h4, fun m hm1 hm2 => ?_⟩
      rcases Nat.eq_or_lt_of_le hm1 with rfl | hlt
      · exact Bool.eq_false_iff.mpr hc
      · exact h5 m hlt hm2

/-- mine_loop exhausts its fuel exactly when no nonce in the scanned range
produces a digest with the target prefix. -/
theorem mine_loop_none (cand : Nat → List Char) (target : List Char) :
    ∀ (fuel start : Nat),
      mine_loop cand target start fuel = none ↔
        ∀ m, start ≤ m → m < start + fuel → startsWith (cand m) target = false := by
  intro fuel
  induction fuel with
  | zero =>
    intro start
    constructor
    · intro _ m h1 h2; omega
    · intro _; rfl
  | succ f ih =>
    intro start
    rw [mine_loop]
    by_cases hc : startsWith (cand start) target = true
    · rw [if_pos hc]
      constructor
      · intro h; exact absurd h (by simp)
      · intro hall
        have h0 := hall start (le_refl _) (by omega)
        rw [hc] at h0
        exact absurd h0 (by simp)
    · rw [if_neg hc]
      rw [ih (start + 1)]
      constructor
      · intro hall m hm1 hm2
        rcases Nat.eq_or_lt_of_le hm1 with rfl | hlt
        · exact Bool.eq_false_iff.mpr hc
        · exact hall m hlt (by omega)
      · intro hall m hm1 hm2
        exact hall m (by omega) (by omega)

/-! ## C1: the StandardDigest value on the empty byte sequence -/

/-- C1, counterexample: SHA256().hash of the empty byte sequence is NOT the
63-character string named by the claim (the real digest has 64 characters;
the claimed string is missing the final 5). -/
theorem c1_counterexample : SHA256.hash [] ≠
    ("e3b0c44298fc1c149afbf4c8996fb92427ae41e4649b934ca495991b7852b85").toList := by
  decide

/-- C1, amended: SHA256().hash of the empty byte sequence is exactly the
64-character hex string of standard SHA-256, ending in b855. -/
theorem c1_amended : SHA256.hash [] =
    ("e3b0c44298fc1c149afbf4c8996fb92427ae41e4649b934ca495991b7852b855").toList := by
  decide

/-! ## C2: mine then verify round trip -/

/-- C2: with block header the single byte 0x61, target 0 zeros and bound 1,
mine_block succeeds at nonce 0 with the FAST-mode digest, yet verify_block on
exactly that reported digest returns false, because verify_block re-derives
the digest in SECURE mode (4 mixing rounds) while mine_block hashed in FAST
mode (2 rounds).  The claimed mine/verify round trip fails. -/
theorem c2_mine_verify_divergence :
    mine_block [97] 0 1 =
      ((0 : Int), BlockHash.hash_with_nonce [97] 0 MiningMode.FAST) ∧
    verify_block [97] 0 (BlockHash.hash_with_nonce [97] 0 MiningMode.FAST) =
      false := by
  decide

/-! ## C3: shape of the three mining searches -/

/-- C3, counterexample: mine_block does not hash the header concatenated with
the decimal text of the nonce.  At header 0x61, target 0, bound 1 it returns
the nonce-mix digest hash_with_nonce(header, 0), which differs from the
FAST-mode digest of the concatenation header ++ str(0). -/
theorem c3_counterexample :
    mine_block [97] 0 1 =
      ((0 : Int), BlockHash.hash_with_nonce [97] 0 MiningMode.FAST) ∧
    BlockHash.hash_with_nonce [97] 0 MiningMode.FAST ≠
      BlockHash.hash_bytes ([97] ++ decBytes 0) MiningMode.FAST := by
  decide

/-- C3, amended: all three searches iterate nonces ascending from 0 and stop
at the first digest with the required prefix of zeros, and each candidate is
a pure function of the nonce alone (a fresh engine per attempt, no state
carried across nonces).  The two text miners hash baseMessage ++ decimal text
of the nonce (SHA-256, and STANDARD-mode BlockHash); mine_block instead
derives its candidate by hash_with_nonce, which xor-mixes the nonce into the
engine state rather than appending decimal text. -/
theorem c3_amended_search_structure :
    (∀ (text : List Nat) (k N n : Nat) (h : List Char),
      mine_sha_256_hash text k N = some (n, h) →
        n < N ∧ h = SHA256.hash (text ++ decBytes n) ∧
        startsWith h (List.replicate k '0') = true ∧
        ∀ m, m < n →
          startsWith (SHA256.hash (text ++ decBytes m))
            (List.replicate k '0') = false) ∧
    (∀ (text : List Nat) (k N n : Nat) (h : List Char),
      mine_smhash_hash text k N = some (n, h) →
        n < N ∧ h = BlockHash.hash_bytes (text ++ decBytes n) MiningMode.STANDARD ∧
        startsWith h (List.replicate k '0') = true ∧
        ∀ m, m < n →
          startsWith (BlockHash.hash_bytes (text ++ decBytes m) MiningMode.STANDARD)
            (List.replicate k '0') = false) ∧
    (∀ (header : List Nat) (k N n : Nat) (h : List Char),
      mine_block header k N = ((n : Int), h) →
        n < N ∧ h = BlockHash.hash_with_nonce header n MiningMode.FAST ∧
        startsWith h (List.replicate k '0') = true ∧
        ∀ m, m < n →
          startsWith (BlockHash.hash_with_nonce header m MiningMode.FAST)
            (List.replicate k '0') = false) := by
  refine ⟨?_, ?_, ?_⟩
  · intro text k N n h heq
    obtain ⟨h1, h2, h3, h4, h5⟩ := mine_loop_found _ _ N 0 n h heq
    exact ⟨by omega, h3, h4, fun m hm => h5 m (Nat.zero_le m) hm⟩
  · intro text k N n h heq
    obtain ⟨h1, h2, h3, h4, h5⟩ := mine_loop_found _ _ N 0 n h heq
    exact ⟨by omega, h3, h4, fun m hm => h5 m (Nat.zero_le m) hm⟩
  · intro header k N n h heq
    unfold mine_block at heq
    rcases hml : mine_loop (fun nonce =>
        BlockHash.hash_with_nonce header nonce MiningMode.FAST)
        (List.replicate k '0') 0 N with _ | ⟨n0, h0⟩
    · rw [hml] at heq
      simp only [Prod.mk.injEq] at heq
      omega
    · rw [hml] at heq
      simp only [Prod.mk.injEq, Int.natCast_inj] at heq
      obtain ⟨rfl, rfl⟩ := heq
      obtain ⟨h1, h2, h3, h4, h5⟩ := mine_loop_found _ _ N 0 n0 h0 hml
      exact ⟨by omega, h3, h4, fun m hm => h5 m (Nat.zero_le m) hm⟩

/-- C3 witness: the SHA-256 miner on the empty text with target 0 finds
nonce 0, and the amended characterization holds there. -/
theorem c3_witness :
    mine_sha_256_hash [] 0 1 = some (0, SHA256.hash ([] ++ decBytes 0)) ∧
    (0 < 1 ∧ SHA256.hash ([] ++ decBytes 0) = SHA256.hash ([] ++ decBytes 0) ∧
      startsWith (SHA256.hash ([] ++ decBytes 0)) (List.replicate 0 '0') = true ∧
      ∀ m, m < 0 →
        startsWith (SHA256.hash ([] ++ decBytes m)) (List.replicate 0 '0') = false) :=
  ⟨by decide, c3_amended_search_structure.1 [] 0 1 0 _ (by decide)⟩

/-! ## C4: minimality and the failure sentinel of mine_block -/

/-- C4: mine_block returns a nonnegative nonce n only when n is below the
bound, the reported digest is the candidate digest mine_block computes at n,
it carries the required prefix of zeros, and no smaller nonce qualifies; and
it returns the sentinel (-1, empty) exactly when no nonce below the bound
qualifies. -/
theorem c4_mine_block_minimality :
    ∀ (header : List Nat) (k N : Nat),
      (∀ (n : Nat) (h : List Char), mine_block header k N = ((n : Int), h) →
        n < N ∧ h = BlockHash.hash_with_nonce header n MiningMode.FAST ∧
        startsWith h (List.replicate k '0') = true ∧
        ∀ m, m < n →
          startsWith (BlockHash.hash_with_nonce header m MiningMode.FAST)
            (List.replicate k '0') = false) ∧
      (mine_block header k N = (-1, []) ↔
        ∀ m, m < N →
          startsWith (BlockHash.hash_with_nonce header m MiningMode.FAST)
            (List.replicate k '0') = false) := by
  intro header k N
  constructor
  · exact fun n h heq => c3_amended_search_structure.2.2 header k N n h heq
  · unfold mine_block
    rcases hml : mine_loop (fun nonce =>
        BlockHash.hash_with_nonce header nonce MiningMode.FAST)
        (List.replicate k '0') 0 N with _ | ⟨n0, h0⟩
    · have := (mine_loop_none (fun nonce =>
        BlockHash.hash_with_nonce header nonce MiningMode.FAST)
        (List.replicate k '0') N 0).mp hml
      simp only [hml]
      exact ⟨fun _ m hm => this m (Nat.zero_le m) (by omega),
        fun _ => trivial⟩
    · simp only [hml]
      constructor
      · intro hcontra
        simp only [Prod.mk.injEq] at hcontra
        omega
      · intro hall
        have : mine_loop (fun nonce =>
            BlockHash.hash_with_nonce header nonce MiningMode.FAST)
            (List.replicate k '0') 0 N = none :=
          (mine_loop_none _ _ N 0).mpr fun m _ hm => hall m (by omega)
        rw [hml] at this
        exact absurd this (by simp)

/-- C4 witness: at header 0x61, target 0 zeros, bound 1, the found branch and
its guarantees hold at nonce 0. -/
theorem c4_witness :
    mine_block [97] 0 1 =
      ((0 : Int), BlockHash.hash_with_nonce [97] 0 MiningMode.FAST) ∧
    (0 < 1 ∧
      BlockHash.hash_with_nonce [97] 0 MiningMode.FAST =
        BlockHash.hash_with_nonce [97] 0 MiningMode.FAST ∧
      startsWith (BlockHash.hash_with_nonce [97] 0 MiningMode.FAST)
        (List.replicate 0 '0') = true ∧
      ∀ m, m < 0 →
        startsWith (BlockHash.hash_with_nonce [97] m MiningMode.FAST)
          (List.replicate 0 '0') = false) :=
  ⟨by decide, (c4_mine_block_minimality [97] 0 1).1 0
    (BlockHash.hash_with_nonce [97] 0 MiningMode.FAST) (by decide)⟩

/-! ## C6: digest is non-destructive -/

/-- C6: digest leaves the engine exactly as it was (mode, state words and
pending buffer), so repeated digests agree and an update after a digest
continues from the pre-digest state. -/
theorem c6_digest_nondestructive :
    ∀ (e : BlockHash.Engine),
      (BlockHash.digestP e).2 = e ∧
      (BlockHash.digestP (BlockHash.digestP e).2).1 = (BlockHash.digestP e).1 ∧
      BlockHash.hexdigest (BlockHash.digestP e).2 = BlockHash.hexdigest e ∧
      ∀ d, BlockHash.update (BlockHash.digestP e).2 d = BlockHash.update e d := by
  intro e
  exact ⟨rfl, rfl, rfl, fun d => rfl⟩

/-! ## C5: FastMix finalization on a short buffer -/

/-- C5, counterexample: on a freshly reset engine the pending buffer is empty
(fewer than 64 bytes), yet finalization does NOT run an ingestion+mixing pass
over the zero-padded block — the digest differs from what one such pass
followed by the two cross mixes would produce.  The Python guard
if self.buffer skips the compression entirely when the buffer is empty. -/
theorem c5_counterexample :
    (BlockHash.mk MiningMode.STANDARD).buffer.length < 64 ∧
    (BlockHash.digestP (BlockHash.mk MiningMode.STANDARD)).1 ≠
      BlockHash.state_bytes (BlockHash.cross_final
        (BlockHash.process_mining_block MiningMode.STANDARD
          (BlockHash.mk MiningMode.STANDARD).state
          ((BlockHash.mk MiningMode.STANDARD).buffer ++
            List.replicate (64 - (BlockHash.mk MiningMode.STANDARD).buffer.length)
              0))) := by
  decide

/-- C5, amended: when the pending buffer is nonempty and shorter than 64
bytes it is zero-padded to exactly 64 bytes and one full ingestion+mixing
pass runs over that block before the two extra cross mixes; when the buffer
is empty no ingestion pass runs and the cross mixes apply directly to the
current state. -/
theorem c5_amended_finalize :
    ∀ (e : BlockHash.Engine), e.buffer.length < 64 →
      ((BlockHash.digestP e).1 = BlockHash.state_bytes (BlockHash.cross_final
        (if e.buffer = [] then e.state
         else BlockHash.process_mining_block e.mode e.state
           (e.buffer ++ List.replicate (64 - e.buffer.length) 0))) ∧
      (e.buffer ≠ [] →
        (e.buffer ++ List.replicate (64 - e.buffer.length) 0).length = 64)) := by
  intro e hlen
  constructor
  · rfl
  · intro _
    simp only [List.length_append, List.length_replicate]
    omega

/-- C5 witness: the engine that has absorbed the single byte 0x61 has a
1-byte pending buffer, and the amended finalization shape holds for it. -/
theorem c5_witness :
    (BlockHash.update (BlockHash.mk MiningMode.STANDARD) [97]).buffer.length < 64 ∧
    (((BlockHash.digestP (BlockHash.update (BlockHash.mk MiningMode.STANDARD)
        [97])).1 =
      BlockHash.state_bytes (BlockHash.cross_final
        (if (BlockHash.update (BlockHash.mk MiningMode.STANDARD) [97]).buffer = []
         then (BlockHash.update (BlockHash.mk MiningMode.STANDARD) [97]).state
         else BlockHash.process_mining_block
           (BlockHash.update (BlockHash.mk MiningMode.STANDARD) [97]).mode
           (BlockHash.update (BlockHash.mk MiningMode.STANDARD) [97]).state
           ((BlockHash.update (BlockHash.mk MiningMode.STANDARD) [97]).buffer ++
             List.replicate
               (64 - (BlockHash.update (BlockHash.mk MiningMode.STANDARD)
                 [97]).buffer.length) 0))) ∧
      ((BlockHash.update (BlockHash.mk MiningMode.STANDARD) [97]).buffer ≠ [] →
        ((BlockHash.update (BlockHash.mk MiningMode.STANDARD) [97]).buffer ++
          List.replicate
            (64 - (BlockHash.update (BlockHash.mk MiningMode.STANDARD)
              [97]).buffer.length) 0).length = 64))) :=
  ⟨by decide, c5_amended_finalize
    (BlockHash.update (BlockHash.mk MiningMode.STANDARD) [97]) (by decide)⟩

/-! ## C7: the StandardDigest padding rule -/

/-- Length of the big-endian byte encoding. -/
theorem toBytesBE_length : ∀ (n v : Nat), (toBytesBE n v).length = n := by
  intro n
  induction n with
  | zero => intro v; rfl
  | succ m ih => intro v; simp [toBytesBE, ih]

/-- The zero-append loop of _pad_message appends exactly enough zero bytes to
reach length 56 mod 64, provided the fuel covers that count. -/
theorem padLoopF_eq : ∀ (f : Nat) (m : List Nat),
    (120 - m.length % 64) % 64 ≤ f →
    SHA256.padLoopF f m = m ++ List.replicate ((120 - m.length % 64) % 64) 0 := by
  intro f
  induction f with
  | zero =>
    intro m hf
    have hz : (120 - m.length % 64) % 64 = 0 := by omega
    rw [hz]
    simp [SHA256.padLoopF]
  | succ f ih =>
    intro m hf
    rw [SHA256.padLoopF]
    by_cases hc : (m.length * 8 + 64) % 512 = 0
    · rw [if_pos hc]
      have hz : (120 - m.length % 64) % 64 = 0 := by omega
      rw [hz]
      simp
    · rw [if_neg hc]
      have hne : m.length % 64 ≠ 56 := by omega
      have harg : (120 - (m ++ [0]).length % 64) % 64 =
          (120 - m.length % 64) % 64 - 1 := by
        simp only [List.length_append, List.length_cons, List.length_nil]
        omega
      rw [ih (m ++ [0]) (by omega)]
      rw [harg, List.append_assoc]
      congr 1
      have hpos : 1 ≤ (120 - m.length % 64) % 64 := by omega
      rw [show (120 - m.length % 64) % 64 =
        ((120 - m.length % 64) % 64 - 1) + 1 by omega]
      rw [List.replicate_succ]
      rfl

/-- Big-endian decode inverts the 8-byte big-endian encode below 2^64. -/
theorem word64At_toBytesBE (v : Nat) (hv : v < 2 ^ 64) :
    word64At (toBytesBE 8 v) 0 = v := by
  have hexp : toBytesBE 8 v = [v / 72057594037927936 % 256,
      v / 281474976710656 % 256, v / 1099511627776 % 256, v / 4294967296 % 256,
      v / 16777216 % 256, v / 65536 % 256, v / 256 % 256, v % 256] := by
    simp [toBytesBE, Nat.div_div_eq_div_mul]
  rw [hexp]
  simp only [word64At, byteAt, List.getD_cons_zero, List.getD_cons_succ]
  have h64 : v < 18446744073709551616 := by
    have : (2:Nat) ^ 64 = 18446744073709551616 := by norm_num
    omega
  norm_num
  omega

/-- C7: for every message whose bit length fits 64 bits, _pad_message yields
a positive multiple of 64 bytes, places 0x80 right after the message, ends
with the 8-byte big-endian encoding of the bit length (which decodes back to
8L), and pads the empty message to exactly 64 bytes. -/
theorem c7_pad_message :
    ∀ (msg : List Nat), 8 * msg.length < 2 ^ 64 →
      (SHA256.pad_message msg).length % 64 = 0 ∧
      0 < (SHA256.pad_message msg).length ∧
      (SHA256.pad_message msg)[msg.length]? = some 0x80 ∧
      (SHA256.pad_message msg).drop ((SHA256.pad_message msg).length - 8) =
        toBytesBE 8 (8 * msg.length) ∧
      word64At (toBytesBE 8 (8 * msg.length)) 0 = 8 * msg.length ∧
      (msg.length = 0 → (SHA256.pad_message msg).length = 64) := by
  intro msg hbits
  have hlen1 : (msg ++ [0x80]).length = msg.length + 1 := by simp
  have hd : (120 - (msg ++ [0x80]).length % 64) % 64 ≤ 64 := by omega
  have hpad : SHA256.pad_message msg =
      ((msg ++ [0x80]) ++
        List.replicate ((120 - (msg.length + 1) % 64) % 64) 0) ++
        toBytesBE 8 (8 * msg.length) := by
    rw [SHA256.pad_message, padLoopF_eq 64 (msg ++ [0x80]) hd, hlen1]
  have hlentot : (SHA256.pad_message msg).length =
      msg.length + 1 + (120 - (msg.length + 1) % 64) % 64 + 8 := by
    rw [hpad]
    simp only [List.length_append, List.length_replicate, toBytesBE_length,
      List.length_cons, List.length_nil]
  refine ⟨by omega, by omega, ?_, ?_, word64At_toBytesBE _ hbits, ?_⟩
  · rw [hpad, List.append_assoc, List.append_assoc,
      List.getElem?_append_right (le_refl msg.length)]
    simp
  · have hfrontlen : ((msg ++ [0x80]) ++
        List.replicate ((120 - (msg.length + 1) % 64) % 64) 0).length =
        msg.length + 1 + (120 - (msg.length + 1) % 64) % 64 := by
      simp only [List.length_append, List.length_replicate, List.length_cons,
        List.length_nil]
    rw [hlentot, hpad,
      show msg.length + 1 + (120 - (msg.length + 1) % 64) % 64 + 8 - 8 =
        msg.length + 1 + (120 - (msg.length + 1) % 64) % 64 from by omega,
      ← hfrontlen]
    exact List.drop_left _ _
  · intro h0
    have : msg = [] := List.length_eq_zero.mp h0
    subst this
    decide

/-- C7 witness: the empty message satisfies the bit-length bound, and its
padding is a positive multiple of 64 bytes of the stated shape (exactly 64
bytes here). -/
theorem c7_witness :
    8 * ([] : List Nat).length < 2 ^ 64 ∧
    ((SHA256.pad_message []).length % 64 = 0 ∧
      0 < (SHA256.pad_message []).length ∧
      (SHA256.pad_message [])[([] : List Nat).length]? = some 0x80 ∧
      (SHA256.pad_message []).drop ((SHA256.pad_message []).length - 8) =
        toBytesBE 8 (8 * ([] : List Nat).length) ∧
      word64At (toBytesBE 8 (8 * ([] : List Nat).length)) 0 =
        8 * ([] : List Nat).length ∧
      (([] : List Nat).length = 0 → (SHA256.pad_message []).length = 64)) :=
  ⟨by decide, c7_pad_message [] (by decide)⟩

/-! ## C8: every digest is 64 lowercase hex characters -/

/-- Base-16 digit strings never exceed k characters for values below 16^k. -/
theorem hexDigitsF_length_le : ∀ (f n k : Nat), n ≤ f → n < 16 ^ k →
    (SHA256.hexDigitsF f n).length ≤ k := by
  intro f
  induction f with
  | zero => intro n k _ _; simp [SHA256.hexDigitsF]
  | succ f ih =>
    intro n k hn hk
    rw [SHA256.hexDigitsF]
    by_cases h0 : n = 0
    · rw [if_pos h0]; simp
    · rw [if_neg h0]
      have hk1 : k ≠ 0 := by
        intro h
        rw [h, pow_zero] at hk
        omega
      obtain ⟨k1, rfl⟩ : ∃ k1, k = k1 + 1 := ⟨k - 1, by omega⟩
      have hdiv : n / 16 ≤ f := by
        have := Nat.div_lt_self (by omega : 0 < n) (by omega : 1 < 16)
        omega
      have hdiv2 : n / 16 < 16 ^ k1 := by
        rw [Nat.div_lt_iff_lt_mul (by omega : 0 < 16)]
        calc n < 16 ^ (k1 + 1) := hk
        _ = 16 ^ k1 * 16 := by ring
      have hrec := ih (n / 16) k1 hdiv hdiv2
      simp only [List.length_append, List.length_cons, List.length_nil]
      omega

/-- Python hex of a 32-bit value is at most 8 characters. -/
theorem pyHex_length_le (n : Nat) (h : n < 16 ^ 8) :
    (SHA256.pyHex n).length ≤ 8 := by
  rw [SHA256.pyHex]
  by_cases h0 : n = 0
  · rw [if_pos h0]; simp
  · rw [if_neg h0]
    exact hexDigitsF_length_le n n 8 (le_refl n) h

/-- Python format 08x of a 32-bit value is exactly 8 characters. -/
theorem toHex8_length (n : Nat) (h : n < 2 ^ 32) :
    (SHA256.toHex8 n).length = 8 := by
  have h16 : n < 16 ^ 8 := by
    have e : (16 : Nat) ^ 8 = 2 ^ 32 := by norm_num
    omega
  have hle := pyHex_length_le n h16
  rw [SHA256.toHex8]
  simp only [List.length_append, List.length_replicate]
  omega

/-- Every word of the compressed state is reduced mod 2^32, whatever the
inputs. -/
theorem process_block_bounded (hs : SHA256.Regs) (block : List Nat) :
    (SHA256.process_block hs block).a < 2 ^ 32 ∧
    (SHA256.process_block hs block).b < 2 ^ 32 ∧
    (SHA256.process_block hs block).c < 2 ^ 32 ∧
    (SHA256.process_block hs block).d < 2 ^ 32 ∧
    (SHA256.process_block hs block).e < 2 ^ 32 ∧
    (SHA256.process_block hs block).f < 2 ^ 32 ∧
    (SHA256.process_block hs block).g < 2 ^ 32 ∧
    (SHA256.process_block hs block).h < 2 ^ 32 := by
  simp only [SHA256.process_block]
  refine ⟨?_, ?_, ?_, ?_, ?_, ?_, ?_, ?_⟩ <;>
    exact Nat.mod_lt _ (by norm_num)

/-- Folding the compressor over any block list preserves the 32-bit state
bound. -/
theorem foldl_process_block_bounded : ∀ (l : List (List Nat)) (hs : SHA256.Regs),
    hs.a < 2 ^ 32 ∧ hs.b < 2 ^ 32 ∧ hs.c < 2 ^ 32 ∧ hs.d < 2 ^ 32 ∧
    hs.e < 2 ^ 32 ∧ hs.f < 2 ^ 32 ∧ hs.g < 2 ^ 32 ∧ hs.h < 2 ^ 32 →
    (l.foldl SHA256.process_block hs).a < 2 ^ 32 ∧
    (l.foldl SHA256.process_block hs).b < 2 ^ 32 ∧
    (l.foldl SHA256.process_block hs).c < 2 ^ 32 ∧
    (l.foldl SHA256.process_block hs).d < 2 ^ 32 ∧
    (l.foldl SHA256.process_block hs).e < 2 ^ 32 ∧
    (l.foldl SHA256.process_block hs).f < 2 ^ 32 ∧
    (l.foldl SHA256.process_block hs).g < 2 ^ 32 ∧
    (l.foldl SHA256.process_block hs).h < 2 ^ 32 := by
  intro l
  induction l with
  | nil => intro hs h; simpa using h
  | cons b t ih =>
    intro hs _
    rw [List.foldl_cons]
    exact ih (SHA256.process_block hs b) (process_block_bounded hs b)

/-- Every hex digit character produced by hexChar lies in the hex alphabet. -/
theorem hexChar_mem (d : Nat) : hexChar d ∈ hexChars := by
  rcases Nat.lt_or_ge d 16 with h | h
  · interval_cases d <;> decide
  · have hlen : hexChars.length ≤ d := by
      have : hexChars.length = 16 := by decide
      omega
    rw [hexChar, List.getD_eq_default _ _ hlen]
    decide

/-- All characters of a base-16 digit string are hex characters. -/
theorem hexDigitsF_mem : ∀ (f n : Nat) (c : Char),
    c ∈ SHA256.hexDigitsF f n → c ∈ hexChars := by
  intro f
  induction f with
  | zero => intro n c hc; simp [SHA256.hexDigitsF] at hc
  | succ f ih =>
    intro n c hc
    rw [SHA256.hexDigitsF] at hc
    by_cases h0 : n = 0
    · rw [if_pos h0] at hc; simp at hc
    · rw [if_neg h0] at hc
      rcases List.mem_append.mp hc with h | h
      · exact ih _ _ h
      · simp only [List.mem_singleton] at h
        rw [h]
        exact hexChar_mem _

/-- All characters of an 08x field are hex characters. -/
theorem toHex8_mem (n : Nat) (c : Char) (hc : c ∈ SHA256.toHex8 n) :
    c ∈ hexChars := by
  rw [SHA256.toHex8] at hc
  rcases List.mem_append.mp hc with h | h
  · rw [List.eq_of_mem_replicate h]; decide
  · rw [SHA256.pyHex] at h
    by_cases h0 : n = 0
    · rw [if_pos h0] at h
      simp only [List.mem_singleton] at h
      rw [h]; decide
    · rw [if_neg h0] at h
      exact hexDigitsF_mem _ _ _ h

/-- The SHA-256 digest string always has 64 characters, all of them lowercase
hex. -/
theorem sha256_hash_length_mem (msg : List Nat) :
    (SHA256.hash msg).length = 64 ∧ ∀ c ∈ SHA256.hash msg, c ∈ hexChars := by
  rw [SHA256.hash]
  have hb := foldl_process_block_bounded
    (SHA256.chunks64F (SHA256.pad_message msg).length (SHA256.pad_message msg))
    SHA256.initH (by decide)
  obtain ⟨b1, b2, b3, b4, b5, b6, b7, b8⟩ := hb
  constructor
  · simp only [List.length_append]
    rw [toHex8_length _ b1, toHex8_length _ b2, toHex8_length _ b3,
      toHex8_length _ b4, toHex8_length _ b5, toHex8_length _ b6,
      toHex8_length _ b7, toHex8_length _ b8]
  · intro c hc
    simp only [List.mem_append] at hc
    rcases hc with ((((((h | h) | h) | h) | h) | h) | h) | h <;>
      exact toHex8_mem _ _ h

/-- Hex encoding doubles the byte count. -/
theorem bytesHex_length : ∀ (l : List Nat), (bytesHex l).length = 2 * l.length := by
  intro l
  induction l with
  | nil => rfl
  | cons b t ih =>
    rw [bytesHex, List.flatMap_cons] at *
    simp only [List.length_append, List.length_cons, byteHex,
      List.length_nil] at *
    omega

/-- The 4-word state serializes to exactly 32 bytes. -/
theorem state_bytes_length (st : BlockHash.MState) :
    (BlockHash.state_bytes st).length = 32 := by
  simp [BlockHash.state_bytes, toBytesBE_length]

/-- BlockHash.hexdigest always has 64 characters. -/
theorem hexdigest_length (e : BlockHash.Engine) :
    (BlockHash.hexdigest e).length = 64 := by
  rw [BlockHash.hexdigest, bytesHex_length]
  rw [show (BlockHash.digestP e).1 =
    BlockHash.state_bytes (BlockHash.finalize_mining e.mode e.state e.buffer)
    from rfl]
  rw [state_bytes_length]

/-- Every character of a hex-encoded byte string is a hex character. -/
theorem bytesHex_mem : ∀ (l : List Nat) (c : Char),
    c ∈ bytesHex l → c ∈ hexChars := by
  intro l
  induction l with
  | nil => intro c hc; simp [bytesHex] at hc
  | cons b t ih =>
    intro c hc
    rw [bytesHex, List.flatMap_cons] at hc
    rcases List.mem_append.mp hc with h | h
    · simp only [byteHex, List.mem_cons, List.mem_singleton,
        List.not_mem_nil, or_false] at h
      rcases h with h | h <;> (rw [h]; exact hexChar_mem _)
    · exact ih c h

/-- C8: for both variants and every FastMix mode, on every input the digest
is a string of exactly 64 lowercase hexadecimal characters. -/
theorem c8_digest_length_hex :
    ∀ (msg : List Nat) (mode : MiningMode),
      (SHA256.hash msg).length = 64 ∧
      (∀ c ∈ SHA256.hash msg, c ∈ hexChars) ∧
      (BlockHash.hash_bytes msg mode).length = 64 ∧
      (∀ c ∈ BlockHash.hash_bytes msg mode, c ∈ hexChars) := by
  intro msg mode
  obtain ⟨h1, h2⟩ := sha256_hash_length_mem msg
  exact ⟨h1, h2, hexdigest_length (BlockHash.update (BlockHash.mk mode) msg),
    fun c hc => bytesHex_mem _ c hc⟩

/-- C8 witness: on the empty input the SHA-256 digest starts with the hex
character e and the FastMix digest with c, both 64 characters long. -/
theorem c8_witness :
    'e' ∈ SHA256.hash [] ∧ 'e' ∈ hexChars ∧
    'c' ∈ BlockHash.hash_bytes [] MiningMode.FAST ∧ 'c' ∈ hexChars ∧
    (SHA256.hash []).length = 64 ∧
    (BlockHash.hash_bytes [] MiningMode.FAST).length = 64 :=
  ⟨by decide, (c8_digest_length_hex [] MiningMode.FAST).2.1 'e' (by decide),
    by decide, (c8_digest_length_hex [] MiningMode.FAST).2.2.2 'c' (by decide),
    (c8_digest_length_hex [] MiningMode.FAST).1,
    (c8_digest_length_hex [] MiningMode.FAST).2.2.1⟩

/-! ## C9: error behavior of header packing and verify -/

/-- C9, counterexample: a prev_hash of 3 bytes (not 32) does NOT surface a
format error — struct.pack silently zero-pads it, the packing succeeds, and
hash_block_header fails with the unrelated AttributeError, not with a
struct.error. -/
theorem c9_counterexample :
    (BlockHash.pack_header 1 [1, 2, 3] (List.replicate 32 0) 0 0 0).isOk =
      true ∧
    BlockHash.hash_block_header 1 [1, 2, 3] (List.replicate 32 0) 0 0 0 =
      Except.error BlockHash.PackErr.attrError ∧
    BlockHash.PackErr.attrError ≠ BlockHash.PackErr.structError :=
  ⟨rfl, rfl, by decide⟩

/-- Length of the little-endian byte encoding. -/
theorem toBytesLE_length : ∀ (n v : Nat), (BlockHash.toBytesLE n v).length = n := by
  intro n
  induction n with
  | zero => intro v; rfl
  | succ m ih => intro v; simp [BlockHash.toBytesLE, ih]

/-- The 32s pack field always yields exactly 32 bytes, whatever the input
length. -/
theorem pad32_length (x : List Nat) : (BlockHash.pad32 x).length = 32 := by
  simp only [BlockHash.pad32, List.length_append, List.length_take,
    List.length_replicate]
  omega

/-- C9, amended: packing fails (struct.error) exactly when an integer field
does not fit its unsigned 32-bit width; wrong-sized prev_hash or merkle_root
are silently truncated or zero-padded and every successful pack is exactly 80
bytes; hash_block_header can never return a digest (its self.hash_bytes call
raises AttributeError after packing succeeds); and verify_block raises
nothing on a mismatched expected hash — it is the boolean equality of the
re-derived SECURE digest with the expectation. -/
theorem c9_amended_packing :
    ∀ (v t b n : Int) (p m : List Nat) (hd : List Nat) (non : Nat)
      (exp : List Char),
      ((BlockHash.pack_header v p m t b n).isOk = true ↔
        (BlockHash.fitsU32 v && BlockHash.fitsU32 t && BlockHash.fitsU32 b &&
          BlockHash.fitsU32 n) = true) ∧
      (∀ bs, BlockHash.pack_header v p m t b n = Except.ok bs →
        bs.length = 80) ∧
      (∀ r, BlockHash.hash_block_header v p m t b n ≠ Except.ok r) ∧
      (verify_block hd non exp = true ↔
        BlockHash.hash_with_nonce hd non MiningMode.SECURE = exp) := by
  intro v t b n p m hd non exp
  refine ⟨?_, ?_, ?_, ?_⟩
  · rw [BlockHash.pack_header]
    by_cases hc : (BlockHash.fitsU32 v && BlockHash.fitsU32 t &&
        BlockHash.fitsU32 b && BlockHash.fitsU32 n) = true
    · rw [if_pos hc]
      exact ⟨fun _ => hc, fun _ => rfl⟩
    · rw [if_neg hc]
      constructor
      · intro h; exact absurd h (by decide)
      · intro h; exact absurd h hc
  · intro bs hbs
    rw [BlockHash.pack_header] at hbs
    by_cases hc : (BlockHash.fitsU32 v && BlockHash.fitsU32 t &&
        BlockHash.fitsU32 b && BlockHash.fitsU32 n) = true
    · rw [if_pos hc] at hbs
      simp only [Except.ok.injEq] at hbs
      rw [← hbs]
      simp only [List.length_append, toBytesLE_length, pad32_length]
    · rw [if_neg hc] at hbs
      exact absurd hbs (by simp)
  · intro r hr
    rw [BlockHash.hash_block_header] at hr
    rcases hpk : BlockHash.pack_header v p m t b n with err | ok
    · rw [hpk] at hr
      exact absurd hr (by simp [Except.bind])
    · rw [hpk] at hr
      exact absurd hr (by simp [Except.bind])
  · rw [verify_block]
    exact decide_eq_true_iff

/-- C9 witness: the concrete pack with a short prev_hash succeeds and its
result has exactly 80 bytes. -/
theorem c9_witness :
    BlockHash.pack_header 1 [1, 2, 3] (List.replicate 32 0) 0 0 0 =
      Except.ok (BlockHash.toBytesLE 4 (1 : Int).toNat ++
        BlockHash.pad32 [1, 2, 3] ++ BlockHash.pad32 (List.replicate 32 0) ++
        BlockHash.toBytesLE 4 (0 : Int).toNat ++
        BlockHash.toBytesLE 4 (0 : Int).toNat ++
        BlockHash.toBytesLE 4 (0 : Int).toNat) ∧
    (BlockHash.toBytesLE 4 (1 : Int).toNat ++ BlockHash.pad32 [1, 2, 3] ++
      BlockHash.pad32 (List.replicate 32 0) ++
      BlockHash.toBytesLE 4 (0 : Int).toNat ++
      BlockHash.toBytesLE 4 (0 : Int).toNat ++
      BlockHash.toBytesLE 4 (0 : Int).toNat).length = 80 :=
  ⟨rfl, (c9_amended_packing 1 0 0 0 [1, 2, 3] (List.replicate 32 0)
    [] 0 []).2.1 _ rfl⟩

/-! ## C10: update is append-homomorphic -/

/-- A buffer shorter than one block is left untouched by the drain loop. -/
theorem drainF_small (mode : MiningMode) : ∀ (f : Nat) (st : BlockHash.MState)
    (buf : List Nat), buf.length < 64 →
    BlockHash.drainF mode f st buf = (st, buf) := by
  intro f st buf h
  cases f with
  | zero => rfl
  | succ f => rw [BlockHash.drainF, if_neg (by omega)]

/-- The drain loop is fuel-irrelevant once the fuel covers the buffer. -/
theorem drainF_congr (mode : MiningMode) : ∀ (f g : Nat) (st : BlockHash.MState)
    (buf : List Nat), buf.length ≤ f → buf.length ≤ g →
    BlockHash.drainF mode f st buf = BlockHash.drainF mode g st buf := by
  intro f
  induction f with
  | zero =>
    intro g st buf hf _
    rw [drainF_small mode 0 st buf (by omega),
      drainF_small mode g st buf (by omega)]
  | succ f ih =>
    intro g st buf hf hg
    by_cases hb : 64 ≤ buf.length
    · cases g with
      | zero => omega
      | succ g =>
        rw [BlockHash.drainF, BlockHash.drainF, if_pos hb, if_pos hb]
        exact ih g _ _ (by simp [List.length_drop]; omega)
          (by simp [List.length_drop]; omega)
    · rw [drainF_small mode (f + 1) st buf (by omega),
        drainF_small mode g st buf (by omega)]

/-- One drain iteration, stated with adequate fuel on both sides. -/
theorem drainF_step (mode : MiningMode) (f : Nat) (st : BlockHash.MState)
    (buf : List Nat) (h64 : 64 ≤ buf.length) (hf : buf.length ≤ f) :
    BlockHash.drainF mode f st buf =
      BlockHash.drainF mode (buf.drop 64).length
        (BlockHash.process_mining_block mode st (buf.take 64)) (buf.drop 64) := by
  cases f with
  | zero => omega
  | succ f =>
    rw [BlockHash.drainF, if_pos h64]
    exact drainF_congr mode f (buf.drop 64).length _ _
      (by simp [List.length_drop]; omega) (le_refl _)

/-- Draining x ++ y equals draining x and then draining the remainder with y
appended: the block boundaries fall in the same places. -/
theorem drainF_append (mode : MiningMode) : ∀ (fuel : Nat) (x y : List Nat)
    (st : BlockHash.MState), x.length ≤ fuel →
    BlockHash.drainF mode (x ++ y).length st (x ++ y) =
      BlockHash.drainF mode
        ((BlockHash.drainF mode x.length st x).2 ++ y).length
        (BlockHash.drainF mode x.length st x).1
        ((BlockHash.drainF mode x.length st x).2 ++ y) := by
  intro fuel
  induction fuel with
  | zero =>
    intro x y st hx
    have hnil : x = [] := List.eq_nil_of_length_eq_zero (by omega)
    subst hnil
    rw [drainF_small mode ([] : List Nat).length st [] (by simp)]
  | succ fuel ih =>
    intro x y st hx
    by_cases h64 : 64 ≤ x.length
    · have h64x : 64 ≤ (x ++ y).length := by simp [List.length_append]; omega
      rw [drainF_step mode (x ++ y).length st (x ++ y) h64x (le_refl _),
        drainF_step mode x.length st x h64 (le_refl _),
        List.take_append_of_le_length h64, List.drop_append_of_le_length h64]
      exact ih (x.drop 64) y
        (BlockHash.process_mining_block mode st (x.take 64))
        (by simp [List.length_drop]; omega)
    · rw [drainF_small mode x.length st x (by omega)]

/-- C10: two consecutive updates leave the engine exactly as the single
update on the concatenation, so any digest taken afterwards agrees. -/
theorem c10_update_append :
    ∀ (e : BlockHash.Engine) (a b : List Nat),
      BlockHash.update (BlockHash.update e a) b =
        BlockHash.update e (a ++ b) ∧
      BlockHash.hexdigest (BlockHash.update (BlockHash.update e a) b) =
        BlockHash.hexdigest (BlockHash.update e (a ++ b)) := by
  intro e a b
  have key : BlockHash.update (BlockHash.update e a) b =
      BlockHash.update e (a ++ b) := by
    simp only [BlockHash.update]
    rw [← List.append_assoc]
    rw [drainF_append e.mode (e.buffer ++ a).length (e.buffer ++ a) b e.state
      (le_refl _)]
  exact ⟨key, by rw [key]⟩
